import Mathlib

/-!
# Verification of the memvfs in-memory virtual file store

A shallow embedding of `memvfs.go` (package `memvfs`): an in-memory VFS
backing a SQLite storage layer.  The store `MemVFS` maps file names to byte
buffers; a `MemFile` handle holds a file name and an advisory lock level.
Content operations (`ReadAt`, `WriteAt`, `Truncate`, `FileSize`) are embedded
as explicit state-passing functions on the store.  Go `int64` offsets become
`Int` with explicit two's-complement wraparound (`int64Wrap`) applied exactly
where the Go code performs `int64` addition that can overflow.  Go runtime
panics from out-of-range slice expressions (e.g. `data[off:]` with a negative
`off`) are embedded as an explicit `panic` result constructor; the Go map
mutations that happen before such a panic are preserved in the returned state.
A byte is modelled as `Nat` (the zero byte is `0`); Go buffers always satisfy
`length < 2^63`, a representability bound carried as a hypothesis where the
arithmetic depends on it.
-/

/-- A byte of a file buffer (Go `byte`); the zero byte is `0`. -/
abbrev Byte := Nat

/-- The store: a namespace mapping file names to byte buffers
(Go `MemVFS{files map[string][]byte}`).  A Go `nil` slice sitting in the map
is observationally a present, zero-length buffer, so it is `some []`. -/
structure MemVFS where
  files : String → Option (List Byte)

/-- Go `New()`: a store with an empty namespace. -/
def MemVFS.new : MemVFS := ⟨fun _ => none⟩

/-- Point update of the namespace map (Go map assignment / `delete`). -/
def upd (f : String → Option (List Byte)) (k : String) (v : Option (List Byte)) :
    String → Option (List Byte) :=
  fun q => if q = k then v else f q

/-- Go `sqlite3vfs.LockType`: `LockNone < LockShared < LockReserved <
LockPending < LockExclusive`. -/
inductive LockType where
  | lockNone
  | shared
  | reserved
  | pending
  | exclusive
deriving DecidableEq, Repr

/-- The numeric value of a lock level (the Go constant). -/
def LockType.toNat : LockType → Nat
  | .lockNone => 0
  | .shared => 1
  | .reserved => 2
  | .pending => 3
  | .exclusive => 4

/-- A handle (Go `MemFile`): a file name plus this handle's advisory lock
level.  The `store` pointer is passed explicitly to each operation. -/
structure MemFile where
  fileName : String
  lockLevel : LockType
deriving DecidableEq, Repr

/-- Two's-complement wraparound of Go `int64` addition. -/
def int64Wrap (x : Int) : Int := (x + 2 ^ 63) % 2 ^ 64 - 2 ^ 63

/-- Go `copy(dst[off:], src)` for `0 ≤ off ≤ dst.length`: overlays `src` onto
`dst` starting at `off`, copying `min src.length (dst.length - off)` bytes;
the destination keeps its length. -/
def copyAt (dst : List Byte) (off : Nat) (src : List Byte) : List Byte :=
  dst.take off ++ src.take (dst.length - off) ++ dst.drop (off + src.length)

/-- Go `MemVFS.getFile`: returns the existing buffer for `fileName`, or
inserts and returns a fresh zero-length buffer if the name is absent.
Returns the buffer together with the (possibly extended) store. -/
def MemVFS.getFile (v : MemVFS) (fileName : String) : List Byte × MemVFS :=
  match v.files fileName with
  | some data => (data, v)
  | none => ([], ⟨upd v.files fileName (some [])⟩)

/-- Go `MemVFS.GetFile`: read-only accessor, `NotFound` (`none`) when the name
has no buffer. -/
def MemVFS.GetFileRaw (v : MemVFS) (fileName : String) : Option (List Byte) :=
  v.files fileName

/-- Outcome of `MemFile.ReadAt`: the caller's buffer after the call together
with the short-read flag (`true` when the Go code returns
`sqlite3vfs.IOErrorShortRead`), or a runtime panic from an out-of-range slice
expression. -/
inductive ReadResult where
  | ok (p : List Byte) (shortRead : Bool)
  | panic
deriving DecidableEq, Repr

/-- Go `MemFile.ReadAt(p, off)` where `pLen = len(p)`: fetches (creating if
absent) the buffer for `fileName`, then
* `off ≥ fileLen`: zero-fills all of `p` and signals a short read;
* `off + pLen > fileLen` (in `int64` arithmetic): copies `[off, fileLen)` to
  the front of `p`, zero-fills the tail, signals a short read;
* otherwise copies `[off, off+pLen)` with no signal.
A negative `off` reaching a slice expression, or a wrapped end below `off`,
panics (the `getFile` insertion has already happened). -/
def ReadAt (v : MemVFS) (fileName : String) (pLen : Nat) (off : Int) :
    MemVFS × ReadResult :=
  let r := v.getFile fileName
  let data := r.1
  let v1 := r.2
  let fileLen : Int := data.length
  if fileLen ≤ off then
    (v1, .ok (List.replicate pLen 0) true)
  else
    let e := int64Wrap (off + pLen)
    if fileLen < e then
      if off < 0 then (v1, .panic)
      else
        let n := min pLen (data.length - off.toNat)
        (v1, .ok ((data.drop off.toNat).take n ++ List.replicate (pLen - n) 0) true)
    else
      if off < 0 ∨ e < off then (v1, .panic)
      else (v1, .ok ((data.drop off.toNat).take pLen) false)

/-- Outcome of `MemFile.WriteAt`: the byte count returned on success, the
`"negative offset + length"` error, or a runtime panic from an out-of-range
slice expression. -/
inductive WriteResult where
  | ok (n : Nat)
  | invalidOffset
  | panic
deriving DecidableEq, Repr

/-- Go `MemFile.WriteAt(p, off)`: reads the buffer straight from the map
(`nil`, i.e. `[]`, when absent — no insertion on the error paths), computes
`newEnd := off + len(p)` in wrapping `int64` arithmetic, and
* `newEnd < 0`: returns the `"negative offset + length"` error, store untouched;
* `newEnd > oldLen`: allocates `newEnd` zero bytes, copies the old content,
  overlays `p` at `off`, stores the result;
* otherwise overlays `p` onto the existing buffer at `off` in place.
`newData[off:]` / `data[off:]` with `off` out of `[0, length]` panics, before
any map assignment. -/
def WriteAt (v : MemVFS) (fileName : String) (p : List Byte) (off : Int) :
    MemVFS × WriteResult :=
  let data := (v.files fileName).getD []
  let oldLen : Int := data.length
  let newEnd := int64Wrap (off + p.length)
  if newEnd < 0 then
    (v, .invalidOffset)
  else if oldLen < newEnd then
    if off < 0 ∨ newEnd < off then (v, .panic)
    else
      let padded := data ++ List.replicate (newEnd.toNat - data.length) 0
      (⟨upd v.files fileName (some (copyAt padded off.toNat p))⟩, .ok p.length)
  else
    if off < 0 ∨ oldLen < off then (v, .panic)
    else
      (⟨upd v.files fileName (some (copyAt data off.toNat p))⟩, .ok p.length)

/-- Outcome of `MemFile.Truncate`: success, or the runtime panic from
`data[:size]` with a negative `size`. -/
inductive TruncResult where
  | ok
  | panic
deriving DecidableEq, Repr

/-- Go `MemFile.Truncate(size)`: reads the buffer straight from the map and
* `size < currentLen`: keeps the prefix `data[:size]` (panics when `size < 0`);
* `size > currentLen`: extends with zero bytes to `size`;
* `size == currentLen`: leaves the map untouched. -/
def Truncate (v : MemVFS) (fileName : String) (size : Int) : MemVFS × TruncResult :=
  let data := (v.files fileName).getD []
  let currentLen : Int := data.length
  if size < currentLen then
    if size < 0 then (v, .panic)
    else (⟨upd v.files fileName (some (data.take size.toNat))⟩, .ok)
  else if currentLen < size then
    (⟨upd v.files fileName (some (data ++ List.replicate (size.toNat - data.length) 0))⟩, .ok)
  else
    (v, .ok)

/-- Go `MemFile.FileSize`: the length of the buffer read straight from the
map (`0` for an absent name).  The source mutates nothing, so the embedding
is a pure function. -/
def FileSize (v : MemVFS) (fileName : String) : Int :=
  ((v.files fileName).getD []).length

/-- Go `MemFile.Lock(lockType)`: raises the handle's level when the requested
level is strictly higher, otherwise leaves it alone. -/
def MemFile.lock (f : MemFile) (lockType : LockType) : MemFile :=
  if f.lockLevel.toNat < lockType.toNat then { f with lockLevel := lockType } else f

/-- Go `MemFile.Unlock(lockType)`: sets the handle's level to exactly the
requested level. -/
def MemFile.unlock (f : MemFile) (lockType : LockType) : MemFile :=
  { f with lockLevel := lockType }

/-- Go `MemFile.CheckReservedLock`: whether the handle's level is at least
`LockReserved`. -/
def MemFile.checkReservedLock (f : MemFile) : Bool :=
  LockType.reserved.toNat ≤ f.lockLevel.toNat

/-- Go `MemVFS.Open(name, flags)`: builds a handle bound to `name` with the
zero lock level.  The store is returned unchanged — `Open` touches neither
the mutex nor the `files` map. -/
def Open (v : MemVFS) (name : String) : MemVFS × MemFile :=
  (v, ⟨name, .lockNone⟩)

/-- Go `MemVFS.Delete(name, syncDir)`: removes the name from the map;
removing an absent name is a no-op. -/
def Delete (v : MemVFS) (name : String) : MemVFS :=
  ⟨upd v.files name none⟩

/-- Go `MemVFS.Access(name, flag)`: whether the name is present in the map. -/
def Access (v : MemVFS) (name : String) : Bool :=
  (v.files name).isSome

/-- Go `MemFile.Close`: delegates to `store.Delete(fileName, true)`. -/
def Close (v : MemVFS) (f : MemFile) : MemVFS :=
  Delete v f.fileName

/-- The spec's `max(current, requested)` on lock levels, under the ordering
`LockNone < Shared < Reserved < Pending < Exclusive`. -/
def LockType.maxL (a b : LockType) : LockType :=
  if a.toNat < b.toNat then b else a

lemma upd_self (f : String → Option (List Byte)) (k : String) (w : Option (List Byte)) :
    upd f k w k = w := by
  simp [upd]

lemma upd_other (f : String → Option (List Byte)) (k : String) (w : Option (List Byte))
    (q : String) (h : q ≠ k) : upd f k w q = f q := by
  simp [upd, h]

lemma int64Wrap_eq_self {x : Int} (h1 : -(2 ^ 63) ≤ x) (h2 : x < 2 ^ 63) :
    int64Wrap x = x := by
  have h64 : (2 : Int) ^ 64 = 2 ^ 63 + 2 ^ 63 := by norm_num
  have h3 : 0 ≤ x + 2 ^ 63 := by linarith
  have h4 : x + 2 ^ 63 < 2 ^ 64 := by linarith
  unfold int64Wrap
  rw [Int.emod_eq_of_lt h3 h4]
  ring

lemma copyAt_length (dst : List Byte) (off : Nat) (src : List Byte)
    (h : off ≤ dst.length) : (copyAt dst off src).length = dst.length := by
  simp only [copyAt, List.length_append, List.length_take, List.length_drop]
  omega

lemma copyAt_read_back (dst : List Byte) (off : Nat) (src : List Byte)
    (h : off + src.length ≤ dst.length) :
    ((copyAt dst off src).drop off).take src.length = src := by
  have hoff : off ≤ dst.length := by omega
  have htk : (dst.take off).length = off := by
    simp [List.length_take]; omega
  have hsrc : src.take (dst.length - off) = src :=
    List.take_of_length_le (by omega)
  unfold copyAt
  rw [hsrc, List.append_assoc, List.drop_left' htk,
    List.take_left' rfl]

/-- C1: for every file name, every offset at or past the current size and
every requested length `L > 0`, `ReadAt` fills the whole result with `L` zero
bytes and signals the short-read condition — it neither fails hard nor
returns fewer bytes. -/
theorem C1_read_past_eof (v : MemVFS) (n : String) (pLen : Nat) (off : Int)
    (_hL : 0 < pLen) (hoff : FileSize v n ≤ off) :
    (ReadAt v n pLen off).2 = .ok (List.replicate pLen 0) true := by
  unfold FileSize at hoff
  unfold ReadAt MemVFS.getFile
  cases h : v.files n with
  | some data =>
    rw [h] at hoff
    simp only [h, Option.getD_some] at hoff ⊢
    rw [if_pos hoff]
  | none =>
    rw [h] at hoff
    simp only [Option.getD_none, List.length_nil, Nat.cast_zero] at hoff
    simp only [h, List.length_nil, Nat.cast_zero]
    rw [if_pos hoff]

/-- Witness for C1 at a concrete input: a store holding `"a" ↦ [7]`, read of
2 bytes at offset 1. -/
theorem C1_read_past_eof_witness :
    (0 < 2 ∧ FileSize (WriteAt MemVFS.new "a" [7] 0).1 "a" ≤ 1) ∧
    (ReadAt (WriteAt MemVFS.new "a" [7] 0).1 "a" 2 1).2 = .ok [0, 0] true :=
  ⟨⟨by decide, by decide⟩,
    C1_read_past_eof (WriteAt MemVFS.new "a" [7] 0).1 "a" 2 1 (by decide) (by decide)⟩

/-- C10: a read on a handle whose name has no buffer inserts a zero-length
buffer for that name as a side effect, so `Access` is true immediately
afterwards even though nothing was written; the read itself reports all-zero
bytes with the short-read condition. -/
theorem C10_read_absent_creates (v : MemVFS) (n : String) (pLen : Nat) (off : Int)
    (habs : v.files n = none) (hoff : 0 ≤ off) :
    (ReadAt v n pLen off).1.files n = some [] ∧
    Access (ReadAt v n pLen off).1 n = true ∧
    (ReadAt v n pLen off).2 = .ok (List.replicate pLen 0) true := by
  unfold ReadAt MemVFS.getFile Access
  simp only [habs, List.length_nil, Int.ofNat_zero]
  rw [if_pos (by exact_mod_cast hoff)]
  simp [upd_self]

/-- Witness for C10 at a concrete input: fresh store, name `"a"`, 3 bytes at
offset 0. -/
theorem C10_read_absent_creates_witness :
    (MemVFS.new.files "a" = none ∧ (0 : Int) ≤ 0) ∧
    ((ReadAt MemVFS.new "a" 3 0).1.files "a" = some [] ∧
     Access (ReadAt MemVFS.new "a" 3 0).1 "a" = true ∧
     (ReadAt MemVFS.new "a" 3 0).2 = .ok (List.replicate 3 0) true) :=
  ⟨⟨rfl, by decide⟩, C10_read_absent_creates MemVFS.new "a" 3 0 rfl (by decide)⟩

/-- C6: closing a handle removes that name's buffer from the namespace
entirely: immediately after `Close`, `Access` is false, the name maps to
nothing, and any still-open handle on the same name sees the file as fresh
and empty (size 0, and its next read re-creates a zero-length buffer). -/
theorem C6_close_removes (v : MemVFS) (name : String) (lvl : LockType) :
    Access (Close v ⟨name, lvl⟩) name = false ∧
    (Close v ⟨name, lvl⟩).files name = none ∧
    FileSize (Close v ⟨name, lvl⟩) name = 0 ∧
    (Close v ⟨name, lvl⟩).getFile name = ([], ⟨upd (Close v ⟨name, lvl⟩).files name (some [])⟩) := by
  refine ⟨?_, ?_, ?_, ?_⟩ <;>
    simp [Close, Delete, Access, FileSize, MemVFS.getFile, upd_self]

/-- C7: `lock` raises the handle's level to the maximum of the current and
requested levels and never lowers it, `unlock` sets the level to exactly the
requested level, `checkReservedLock` is true exactly when the level is at
least `Reserved`, and the concrete sequence `lock Shared; lock Exclusive;
unlock Shared` ends at `Shared` with `checkReservedLock` false. -/
theorem C7_lock_state_machine :
    (∀ (name : String) (cur l : LockType),
      ((MemFile.mk name cur).lock l).lockLevel = cur.maxL l) ∧
    (∀ (name : String) (cur l : LockType),
      ((MemFile.mk name cur).unlock l).lockLevel = l) ∧
    (∀ (name : String) (cur : LockType),
      (MemFile.mk name cur).checkReservedLock = true ↔
        LockType.reserved.toNat ≤ cur.toNat) ∧
    (∀ name : String,
      ((((Open MemVFS.new name).2.lock .shared).lock .exclusive).unlock .shared).lockLevel
          = .shared ∧
      ((((Open MemVFS.new name).2.lock .shared).lock .exclusive).unlock .shared).checkReservedLock
          = false) := by
  refine ⟨?_, ?_, ?_, ?_⟩
  · intro name cur l
    cases cur <;> cases l <;> rfl
  · intro name cur l
    rfl
  · intro name cur
    cases cur <;> simp [MemFile.checkReservedLock, LockType.toNat]
  · intro name
    exact ⟨rfl, rfl⟩

lemma ReadAt_fst (v : MemVFS) (n : String) (pLen : Nat) (off : Int) :
    (ReadAt v n pLen off).1 = (v.getFile n).2 := by
  simp only [ReadAt]
  split
  · rfl
  · split
    · split <;> rfl
    · split <;> rfl

/-- C9: frame property — a read, write or truncate addressed to name `n`
leaves every other name's entry (presence and byte content alike) exactly as
it was; the size query is embedded as a pure function of the store because
the source mutates nothing there. -/
theorem C9_frame (v : MemVFS) (n m : String) (h : m ≠ n) (pLen : Nat) (off : Int)
    (p : List Byte) (k : Int) :
    (ReadAt v n pLen off).1.files m = v.files m ∧
    (WriteAt v n p off).1.files m = v.files m ∧
    (Truncate v n k).1.files m = v.files m := by
  refine ⟨?_, ?_, ?_⟩
  · rw [ReadAt_fst]
    unfold MemVFS.getFile
    cases hf : v.files n <;> simp [hf, upd, h]
  · simp only [WriteAt]
    split
    · rfl
    · split <;> split <;> first | rfl | simp [upd, h]
  · simp only [Truncate]
    split
    · split <;> first | rfl | simp [upd, h]
    · split <;> first | rfl | simp [upd, h]

/-- Witness for C9 at a concrete input: operations on `"a"` leave `"b"`'s
entry untouched. -/
theorem C9_frame_witness :
    ("b" ≠ "a") ∧
    ((ReadAt MemVFS.new "a" 3 0).1.files "b" = MemVFS.new.files "b" ∧
     (WriteAt MemVFS.new "a" [7] 0).1.files "b" = MemVFS.new.files "b" ∧
     (Truncate MemVFS.new "a" 2).1.files "b" = MemVFS.new.files "b") :=
  ⟨by decide, C9_frame MemVFS.new "a" "b" (by decide) 3 0 [7] 2⟩

/-- C5: for every non-negative `k`, `Truncate` succeeds and leaves the file
at size exactly `k`, whatever the prior size: a smaller `k` keeps exactly the
length-`k` prefix, a larger `k` appends zero bytes up to `k`, and `k` equal
to the current size leaves the store untouched. -/
theorem C5_truncate (v : MemVFS) (n : String) (k : Int) (hk : 0 ≤ k) :
    (Truncate v n k).2 = .ok ∧
    FileSize (Truncate v n k).1 n = k ∧
    (k < FileSize v n →
      (Truncate v n k).1.files n = some (((v.files n).getD []).take k.toNat)) ∧
    (FileSize v n < k →
      (Truncate v n k).1.files n =
        some ((v.files n).getD [] ++
          List.replicate (k.toNat - ((v.files n).getD []).length) 0)) ∧
    (k = FileSize v n → (Truncate v n k).1 = v) := by
  simp only [Truncate, FileSize]
  by_cases h1 : k < (((v.files n).getD []).length : Int)
  · rw [if_pos h1, if_neg (not_lt.mpr hk)]
    refine ⟨rfl, ?_, fun _ => by simp [upd_self], fun h2 => absurd h2 (by omega),
      fun h2 => absurd h2 (by omega)⟩
    simp only [upd_self, Option.getD_some, List.length_take]
    omega
  · rw [if_neg h1]
    by_cases h2 : (((v.files n).getD []).length : Int) < k
    · rw [if_pos h2]
      refine ⟨rfl, ?_, fun h3 => absurd h3 h1, fun _ => by simp [upd_self],
        fun h3 => absurd h3 (by omega)⟩
      simp only [upd_self, Option.getD_some, List.length_append, List.length_replicate]
      omega
    · rw [if_neg h2]
      refine ⟨rfl, ?_, fun h3 => absurd h3 h1, fun h3 => absurd h3 h2,
        fun _ => rfl⟩
      show (((v.files n).getD []).length : Int) = k
      omega

/-- Witness for C5 at a concrete input: truncating `"a" ↦ [7]` up to size 3.
-/
theorem C5_truncate_witness :
    ((0 : Int) ≤ 3) ∧
    ((Truncate (WriteAt MemVFS.new "a" [7] 0).1 "a" 3).2 = .ok ∧
     FileSize (Truncate (WriteAt MemVFS.new "a" [7] 0).1 "a" 3).1 "a" = 3 ∧
     (Truncate (WriteAt MemVFS.new "a" [7] 0).1 "a" 3).1.files "a" = some [7, 0, 0]) :=
  ⟨by decide,
    have h := C5_truncate (WriteAt MemVFS.new "a" [7] 0).1 "a" 3 (by decide)
    ⟨h.1, h.2.1, by
      have h3 := h.2.2.2.1 (by decide)
      rw [h3]
      decide⟩⟩

/-- C3 counterexample: on a fresh store, `Access "a"` is false, and — against
the claim that it turns true immediately after `open` — it is still false
right after `Open "a"`: `Open` only builds a handle and creates no buffer. -/
theorem C3_counterexample :
    Access MemVFS.new "a" = false ∧
    Access (Open MemVFS.new "a").1 "a" = false := by decide

/-- C3 (amended): `Access n` is false while `n` has no buffer, is left
unchanged by `Open` (creation is lazy — `Open` touches nothing), becomes true
after the handle's first read of `n` (which creates the buffer) or first
successful write, is false again immediately after `Delete n`, and operations
on a different name never change it. -/
theorem C3_access_lifecycle (v : MemVFS) (n m : String) (pLen : Nat) (off : Int)
    (p : List Byte) :
    (v.files n = none → Access v n = false) ∧
    Access (Open v n).1 n = Access v n ∧
    Access (ReadAt v n pLen off).1 n = true ∧
    ((WriteAt v n p off).2 = .ok p.length → Access (WriteAt v n p off).1 n = true) ∧
    Access (Delete v n) n = false ∧
    (n ≠ m →
      Access (Open v m).1 n = Access v n ∧
      Access (ReadAt v m pLen off).1 n = Access v n ∧
      Access (WriteAt v m p off).1 n = Access v n ∧
      Access (Delete v m) n = Access v n) := by
  refine ⟨?_, rfl, ?_, ?_, ?_, ?_⟩
  · intro h
    simp [Access, h]
  · rw [ReadAt_fst]
    unfold MemVFS.getFile
    cases hf : v.files n <;> simp [Access, hf, upd_self]
  · simp only [WriteAt]
    split
    · intro h
      exact absurd h (by simp)
    · split <;> split <;> intro h
      · exact absurd h (by simp)
      · simp [Access, upd_self]
      · exact absurd h (by simp)
      · simp [Access, upd_self]
  · simp [Access, Delete, upd_self]
  · intro hnm
    refine ⟨rfl, ?_, ?_, ?_⟩
    · rw [ReadAt_fst]
      unfold MemVFS.getFile
      cases hf : v.files m <;> simp [Access, hf, upd, hnm]
    · simp only [WriteAt]
      split
      · rfl
      · split <;> split <;> first | rfl | simp [Access, upd, hnm]
    · simp [Access, Delete, upd, hnm]

/-- Witness for C3's amended theorem at concrete inputs: fresh store, names
`"a"` and `"b"`, 3-byte read at offset 0, 1-byte write. -/
theorem C3_access_lifecycle_witness :
    Access MemVFS.new "a" = false ∧
    Access (Open MemVFS.new "a").1 "a" = Access MemVFS.new "a" ∧
    Access (ReadAt MemVFS.new "a" 3 0).1 "a" = true ∧
    Access (WriteAt MemVFS.new "a" [7] 0).1 "a" = true ∧
    Access (Delete MemVFS.new "a") "a" = false ∧
    Access (ReadAt MemVFS.new "b" 3 0).1 "a" = Access MemVFS.new "a" :=
  have h := C3_access_lifecycle MemVFS.new "a" "b" 3 0 [7]
  ⟨h.1 rfl, h.2.1, h.2.2.1, h.2.2.2.1 (by decide), h.2.2.2.2.1,
    (h.2.2.2.2.2 (by decide)).2.1⟩

/-- C8 counterexample: at offset `-1` with two bytes, the target range is not
representable (negative offset), yet `WriteAt` does not return the
InvalidOffset error — the slice expression `newData[off:]` panics instead. -/
theorem C8_counterexample :
    (WriteAt MemVFS.new "a" [1, 2] (-1)).2 = .panic ∧
    (WriteAt MemVFS.new "a" [1, 2] (-1)).2 ≠ .invalidOffset := by decide

/-- C8 (amended): `WriteAt` returns the InvalidOffset error exactly when
`offset + len(bytes)` computed in wrapping `int64` arithmetic is negative,
and then leaves the store untouched; a negative offset whose computed end is
non-negative instead hits a runtime panic, also leaving the store untouched;
every write with a non-negative offset and an end below `2^63` succeeds. -/
theorem C8_write_invalid_offset (v : MemVFS) (n : String) (p : List Byte) (off : Int) :
    ((WriteAt v n p off).2 = .invalidOffset ↔ int64Wrap (off + p.length) < 0) ∧
    (int64Wrap (off + p.length) < 0 → WriteAt v n p off = (v, .invalidOffset)) ∧
    ((WriteAt v n p off).2 = .panic → (WriteAt v n p off).1 = v) ∧
    (0 ≤ off → off + (p.length : Int) < 2 ^ 63 → (WriteAt v n p off).2 = .ok p.length) := by
  refine ⟨?_, ?_, ?_, ?_⟩
  · simp only [WriteAt]
    split
    next hE => simp [hE]
    next hE => split <;> split <;> simp [hE]
  · intro hE
    simp only [WriteAt]
    rw [if_pos hE]
  · simp only [WriteAt]
    split
    · intro _
      rfl
    · split <;> split <;> intro h <;> first | rfl | simp at h
  · intro h0 h1
    have hp : (0 : Int) ≤ (p.length : Int) := Int.natCast_nonneg _
    have hpos : (0 : Int) ≤ off + (p.length : Int) := by linarith
    have hc : -(2 ^ 63 : Int) ≤ 0 := by norm_num
    have hE : int64Wrap (off + (p.length : Int)) = off + (p.length : Int) :=
      int64Wrap_eq_self (by linarith) h1
    simp only [WriteAt, hE]
    rw [if_neg (not_lt.mpr hpos)]
    split
    next h2 =>
      rw [if_neg (by push_neg; exact ⟨h0, by linarith⟩)]
    next h2 =>
      rw [if_neg (by push_neg; exact ⟨h0, by linarith⟩)]

/-- Witness for C8's amended theorem at concrete inputs: offset `-2` with one
byte errors out with the store untouched; offset `0` with one byte succeeds. -/
theorem C8_write_invalid_offset_witness :
    (int64Wrap (-2 + (([1] : List Byte).length : Int)) < 0 ∧
      WriteAt MemVFS.new "a" [1] (-2) = (MemVFS.new, .invalidOffset)) ∧
    ((0 : Int) ≤ 0 ∧ (0 : Int) + (([1] : List Byte).length : Int) < 2 ^ 63 ∧
      (WriteAt MemVFS.new "a" [1] 0).2 = .ok 1) :=
  ⟨⟨by decide, (C8_write_invalid_offset MemVFS.new "a" [1] (-2)).2.1 (by decide)⟩,
    ⟨by decide, by decide,
      (C8_write_invalid_offset MemVFS.new "a" [1] 0).2.2.2 (by decide) (by decide)⟩⟩

/-- C4 counterexample: with the file `"a" ↦ [7]` (size 1), the offset `-1`
and length 3 satisfy `o < size < o + L`, yet the read does not return real
bytes followed by zeros with a short-read signal — the slice expression
`data[off:fileLen]` panics on the negative offset. -/
theorem C4_counterexample :
    ((-1 : Int) < FileSize (WriteAt MemVFS.new "a" [7] 0).1 "a" ∧
     FileSize (WriteAt MemVFS.new "a" [7] 0).1 "a" < -1 + 3) ∧
    (ReadAt (WriteAt MemVFS.new "a" [7] 0).1 "a" 3 (-1)).2 = .panic := by decide

/-- C4 (amended): for every non-negative offset `o` with
`o < size < o + L` and the requested end `o + L` representable in `int64`,
`ReadAt` returns the `size - o` real bytes of `[o, size)` followed by
`o + L - size` zero bytes covering the whole unread tail, and signals the
short-read condition. -/
theorem C4_short_read_mid (v : MemVFS) (n : String) (pLen : Nat) (off : Int)
    (h0 : 0 ≤ off) (h1 : off < FileSize v n) (h2 : FileSize v n < off + pLen)
    (h3 : off + (pLen : Int) < 2 ^ 63) :
    (ReadAt v n pLen off).2 =
      .ok ((((v.files n).getD []).drop off.toNat) ++
        List.replicate (off.toNat + pLen - ((v.files n).getD []).length) 0) true := by
  unfold FileSize at h1 h2
  cases hf : v.files n with
  | none =>
    rw [hf] at h1
    simp only [Option.getD_none, List.length_nil, Nat.cast_zero] at h1
    exact absurd h1 (not_lt.mpr h0)
  | some data =>
    rw [hf] at h1 h2
    simp only [Option.getD_some] at h1 h2
    have hc : -(2 ^ 63 : Int) ≤ 0 := by norm_num
    have hp : (0 : Int) ≤ (pLen : Int) := Int.natCast_nonneg _
    have hE : int64Wrap (off + (pLen : Int)) = off + (pLen : Int) :=
      int64Wrap_eq_self (by linarith) h3
    unfold ReadAt MemVFS.getFile
    simp only [hf, Option.getD_some, hE]
    rw [if_neg (not_le.mpr h1), if_pos h2, if_neg (not_lt.mpr h0)]
    have hmin : min pLen (data.length - off.toNat) = data.length - off.toNat := by
      omega
    have hcnt : pLen - (data.length - off.toNat) = off.toNat + pLen - data.length := by
      omega
    rw [hmin, hcnt, List.take_of_length_le (by rw [List.length_drop])]

/-- Witness for C4's amended theorem at a concrete input: file `"a" ↦ [7, 8]`,
read of 3 bytes at offset 1 returns `[8, 0, 0]` with the short-read signal. -/
theorem C4_short_read_mid_witness :
    ((0 : Int) ≤ 1 ∧ (1 : Int) < FileSize (WriteAt MemVFS.new "a" [7, 8] 0).1 "a" ∧
      FileSize (WriteAt MemVFS.new "a" [7, 8] 0).1 "a" < 1 + 3 ∧
      (1 : Int) + (3 : Nat) < 2 ^ 63) ∧
    (ReadAt (WriteAt MemVFS.new "a" [7, 8] 0).1 "a" 3 1).2 = .ok [8, 0, 0] true := by
  refine ⟨⟨by decide, by decide, by decide, by decide⟩, ?_⟩
  have h := C4_short_read_mid (WriteAt MemVFS.new "a" [7, 8] 0).1 "a" 3 1
    (by decide) (by decide) (by decide) (by decide)
  rw [h]
  decide

lemma ReadAt_of_stored (v : MemVFS) (n : String) (d : List Byte) (pLen : Nat)
    (off : Int) (hd : v.files n = some d) (h0 : 0 ≤ off)
    (hle : off.toNat + pLen ≤ d.length) (hrep : off + (pLen : Int) < 2 ^ 63) :
    ∃ sr, (ReadAt v n pLen off).2 = .ok ((d.drop off.toNat).take pLen) sr := by
  have hc : -(2 ^ 63 : Int) ≤ 0 := by norm_num
  have hp : (0 : Int) ≤ (pLen : Int) := Int.natCast_nonneg _
  have hE : int64Wrap (off + (pLen : Int)) = off + (pLen : Int) :=
    int64Wrap_eq_self (by linarith) hrep
  unfold ReadAt MemVFS.getFile
  simp only [hd, Option.getD_some, hE]
  by_cases hb : (d.length : Int) ≤ off
  · have hp0 : pLen = 0 := by omega
    rw [if_pos hb]
    exact ⟨true, by simp [hp0]⟩
  · rw [if_neg hb, if_neg (by omega), if_neg (by push_neg; exact ⟨h0, by omega⟩)]
    exact ⟨false, rfl⟩

lemma WriteAt_files (v : MemVFS) (n : String) (p : List Byte) (off : Int)
    (h0 : 0 ≤ off) (h1 : off + (p.length : Int) < 2 ^ 63) :
    (WriteAt v n p off).2 = .ok p.length ∧
    ∃ d : List Byte,
      (WriteAt v n p off).1.files n = some d ∧
      off.toNat + p.length ≤ d.length ∧
      (d.drop off.toNat).take p.length = p := by
  have hc : -(2 ^ 63 : Int) ≤ 0 := by norm_num
  have hp : (0 : Int) ≤ (p.length : Int) := Int.natCast_nonneg _
  have hpos : (0 : Int) ≤ off + (p.length : Int) := by linarith
  have hE : int64Wrap (off + (p.length : Int)) = off + (p.length : Int) :=
    int64Wrap_eq_self (by linarith) h1
  simp only [WriteAt, hE]
  rw [if_neg (not_lt.mpr hpos)]
  split
  next hb =>
    rw [if_neg (by push_neg; exact ⟨h0, by linarith⟩)]
    set data := (v.files n).getD [] with hdata
    set padded := data ++ List.replicate ((off + (p.length : Int)).toNat - data.length) 0
      with hpadded
    have hplen : padded.length = off.toNat + p.length := by
      rw [hpadded]
      simp only [List.length_append, List.length_replicate]
      omega
    refine ⟨rfl, copyAt padded off.toNat p, by simp [upd_self], ?_, ?_⟩
    · rw [copyAt_length padded off.toNat p (by omega), hplen]
    · exact copyAt_read_back padded off.toNat p (by omega)
  next hb =>
    rw [if_neg (by push_neg; exact ⟨h0, by linarith⟩)]
    set data := (v.files n).getD [] with hdata
    have hlen : off.toNat + p.length ≤ data.length := by omega
    refine ⟨rfl, copyAt data off.toNat p, by simp [upd_self], ?_,
      copyAt_read_back data off.toNat p hlen⟩
    rw [copyAt_length data off.toNat p (by omega)]
    exact hlen

lemma sparse_overlay (data p : List Byte) (K : Nat) (hK : data.length ≤ K) :
    copyAt (data ++ List.replicate (K + p.length - data.length) 0) K p =
      data ++ List.replicate (K - data.length) 0 ++ p := by
  unfold copyAt
  have hlen : (data ++ List.replicate (K + p.length - data.length) 0).length
      = K + p.length := by
    simp only [List.length_append, List.length_replicate]
    omega
  rw [hlen]
  have h1 : K + p.length - K = p.length := by omega
  rw [h1, List.take_length]
  rw [List.drop_eq_nil_of_le (by rw [hlen])]
  rw [List.take_append_eq_append_take, List.take_of_length_le hK, List.take_replicate]
  have h2 : min (K - data.length) (K + p.length - data.length) = K - data.length := by
    omega
  rw [h2]
  simp

lemma WriteAt_sparse_content (v : MemVFS) (n : String) (p : List Byte) (off : Int)
    (h0 : 0 ≤ off) (h1 : off + (p.length : Int) < 2 ^ 63)
    (hgap : ((v.files n).getD []).length ≤ off.toNat) :
    (WriteAt v n p off).1.files n =
      some ((v.files n).getD [] ++
        List.replicate (off.toNat - ((v.files n).getD []).length) 0 ++ p) := by
  have hc : -(2 ^ 63 : Int) ≤ 0 := by norm_num
  have hp : (0 : Int) ≤ (p.length : Int) := Int.natCast_nonneg _
  have hpos : (0 : Int) ≤ off + (p.length : Int) := by linarith
  have hE : int64Wrap (off + (p.length : Int)) = off + (p.length : Int) :=
    int64Wrap_eq_self (by linarith) h1
  have hKP : (off + (p.length : Int)).toNat = off.toNat + p.length := by omega
  simp only [WriteAt, hE]
  rw [if_neg (not_lt.mpr hpos)]
  split
  next hb =>
    rw [if_neg (by push_neg; exact ⟨h0, by linarith⟩)]
    simp only [upd_self, hKP]
    rw [sparse_overlay _ p off.toNat hgap]
  next hb =>
    rw [if_neg (by push_neg; exact ⟨h0, by linarith⟩)]
    simp only [upd_self]
    have hb' : off + (p.length : Int) ≤ (((v.files n).getD []).length : Int) :=
      not_lt.mp hb
    have hp0 : p.length = 0 := by omega
    have hleq : ((v.files n).getD []).length = off.toNat := by omega
    have hdl : ((v.files n).getD []).length ≤ off.toNat := le_of_eq hleq
    have hpnil : p = [] := List.eq_nil_of_length_eq_zero hp0
    subst hpnil
    unfold copyAt
    rw [List.take_of_length_le hdl]
    simp [hleq, List.drop_eq_nil_of_le hdl]

/-- C2 counterexample: at the representable `int64` offset `2^63 - 1` with one
byte, the write's end overflows, `WriteAt` rejects it and the subsequent read
returns a zero byte, not the written byte — the round trip fails for this
non-negative offset. -/
theorem C2_counterexample :
    (0 : Int) ≤ 2 ^ 63 - 1 ∧
    ∀ sr : Bool,
      (ReadAt (WriteAt MemVFS.new "a" [1] (2 ^ 63 - 1)).1 "a" 1 (2 ^ 63 - 1)).2 ≠
        .ok [1] sr := by decide

/-- C2 (amended): for every non-negative offset whose end
`offset + len(bytes)` stays below `2^63` (so the `int64` arithmetic does not
overflow), writing `bytes` and reading `len(bytes)` bytes back at the same
offset succeeds and yields exactly `bytes` — including sparse writes past the
current size, whose gap is materialized as zeros. -/
theorem C2_round_trip (v : MemVFS) (n : String) (p : List Byte) (off : Int)
    (h0 : 0 ≤ off) (h1 : off + (p.length : Int) < 2 ^ 63) :
    (WriteAt v n p off).2 = .ok p.length ∧
    (∃ sr, (ReadAt (WriteAt v n p off).1 n p.length off).2 = .ok p sr) ∧
    (((v.files n).getD []).length ≤ off.toNat →
      (WriteAt v n p off).1.files n =
        some ((v.files n).getD [] ++
          List.replicate (off.toNat - ((v.files n).getD []).length) 0 ++ p) ∧
      ∃ sr2, (ReadAt (WriteAt v n p off).1 n
          (off.toNat - ((v.files n).getD []).length)
          (((v.files n).getD []).length : Int)).2 =
        .ok (List.replicate (off.toNat - ((v.files n).getD []).length) 0) sr2) := by
  obtain ⟨hok, d, hd, hlen, hback⟩ := WriteAt_files v n p off h0 h1
  refine ⟨hok, ?_, ?_⟩
  · obtain ⟨sr, hr⟩ :=
      ReadAt_of_stored (WriteAt v n p off).1 n d p.length off hd h0 hlen h1
    exact ⟨sr, by rw [hr, hback]⟩
  · intro hgap
    have hcontent := WriteAt_sparse_content v n p off h0 h1 hgap
    refine ⟨hcontent, ?_⟩
    set data := (v.files n).getD [] with hdata
    set g := off.toNat - data.length with hg
    have h0' : (0 : Int) ≤ (data.length : Int) := Int.natCast_nonneg _
    have hle' : ((data.length : Int)).toNat + g ≤
        (data ++ List.replicate g 0 ++ p).length := by
      simp only [List.length_append, List.length_replicate]
      omega
    have hrep' : (data.length : Int) + (g : Int) < 2 ^ 63 := by omega
    obtain ⟨sr2, hr2⟩ := ReadAt_of_stored (WriteAt v n p off).1 n
      (data ++ List.replicate g 0 ++ p) g (data.length : Int) hcontent h0' hle' hrep'
    refine ⟨sr2, ?_⟩
    rw [hr2]
    congr 1
    have ht : ((data.length : Int)).toNat = data.length := by omega
    rw [ht, List.append_assoc, List.drop_left, List.take_left' (by simp)]

/-- Witness for C2's amended theorem at a concrete input: a sparse write of
`[9]` at offset 2 into a fresh store reads back as `[9]`, materializes the
gap `[0, 2)` as zeros, and the gap reads back as two zero bytes. -/
theorem C2_round_trip_witness :
    ((0 : Int) ≤ 2 ∧ (2 : Int) + (([9] : List Byte).length : Int) < 2 ^ 63) ∧
    ((WriteAt MemVFS.new "a" [9] 2).2 = .ok 1 ∧
     (∃ sr, (ReadAt (WriteAt MemVFS.new "a" [9] 2).1 "a" 1 2).2 = .ok [9] sr) ∧
     (WriteAt MemVFS.new "a" [9] 2).1.files "a" = some [0, 0, 9] ∧
     ∃ sr2, (ReadAt (WriteAt MemVFS.new "a" [9] 2).1 "a" 2 0).2 = .ok [0, 0] sr2) := by
  have h := C2_round_trip MemVFS.new "a" [9] 2 (by decide) (by decide)
  have hgap := h.2.2 (by decide)
  refine ⟨⟨by decide, by decide⟩, h.1, h.2.1, ?_, ?_⟩
  · rw [hgap.1]
    decide
  · obtain ⟨sr2, hr2⟩ := hgap.2
    exact ⟨sr2, hr2⟩
